import Mathlib

/-!
Verification of the branch-cleanup core of `gitlostapi` (git-list).

The source is `src/gitlostapi/__init__.py`.  We shallowly embed the decision
engine: the reachability analyzer `_examine_branch` (lines 117-151), the
executor `_request_removal` (lines 185-209), the dead-code deletion path
`_attempt_removal` (lines 154-182), and the driver loop of `main`
(lines 216-278).

Modelling conventions:
* Interactive and repository side effects are recorded as a trace of
  `Event`s inside a state `St`.  `Event.query b` records the backend call
  `git branch --all --contains=b`; `Event.mergeBase`/`Event.resolve` record
  the `git merge-base` / `git rev-parse --verify` calls (these occur only in
  `_attempt_removal`).
* `click.confirm(msg, default=False)` is modelled by consuming the next
  entry of `St.answers`; an exhausted list is the unanswered/empty response,
  which yields the default `false`.
* Python sets (the `descendants` set and the inventory) are modelled as
  `List String` carrying the set's (arbitrary) iteration order; membership
  tests are order-independent, iteration follows the list.
* Fallible backend calls return `Except`; uncaught Python exceptions
  (`KeyError` from `set.remove`, `IndexError` from `permanent[0]`,
  `CalledProcessError` from `subprocess.check_output`) are modelled as
  `Except.error` values that propagate, exactly as the source has no
  `try`/`except` around them.
-/

namespace GitLost

/-- Observable actions of one run: user prompts, checkout switches, local
branch deletions, the skip announcement for permanent branches, the
`git branch --contains` query, and the `git merge-base` /
`git rev-parse --verify` backend calls. -/
inductive Event where
  | prompt (branch target : String)
  | checkout (target : String)
  | delete (branch : String)
  | skip (branch : String)
  | query (branch : String)
  | mergeBase (a b : String)
  | resolve (refName : String)
deriving DecidableEq

/-- Errors that abort a run: `backend` models a raised
`subprocess.CalledProcessError`, `keyError` the `set.remove` failure at
line 123, `indexError` the `permanent[0]` failure when the permanent list is
empty, and `policy` the `click.ClickException('No remotes nominated')` at
line 236. -/
inductive RunErr where
  | backend
  | keyError
  | indexError
  | policy
deriving DecidableEq

/-- Mutable run state: the active checkout (`None` when detached), the set of
local branch refs, the remaining user answers, and the event trace. -/
structure St where
  current : Option String
  refs : Finset String
  answers : List Bool
  events : List Event
deriving DecidableEq

/-- Lines 185-209, `_request_removal(repo, head, othername, defaultJump)`:
prompt with default "no"; on acceptance, if the examined branch is the active
checkout first `git checkout defaultJump`, then `git branch -D` the branch.
Returns whether the user accepted. -/
def request_removal (st : St) (branch othername defaultJump : String) : Bool × St :=
  match st.answers with
  | [] =>
    (false, { st with events := st.events ++ [Event.prompt branch othername] })
  | ans :: rest =>
    if ans then
      let st1 : St :=
        { st with answers := rest,
                  events := st.events ++ [Event.prompt branch othername] }
      let st2 : St :=
        if st.current = some branch then
          { st1 with current := some defaultJump,
                     events := st1.events ++ [Event.checkout defaultJump] }
        else st1
      (true, { st2 with refs := st2.refs.erase branch,
                        events := st2.events ++ [Event.delete branch] })
    else
      (false, { st with answers := rest,
                        events := st.events ++ [Event.prompt branch othername] })

/-- Python's `permanent[0]`: the head of the list, or an `IndexError` when the
list is empty. -/
def perm0 : List String → Except RunErr String
  | [] => Except.error RunErr.indexError
  | p :: _ => Except.ok p

/-- Line 135: the remote-qualified name `'remotes/{}/{}'.format(remote, perm)`. -/
def qualifyRemote (remote perm : String) : String :=
  "remotes/" ++ remote ++ "/" ++ perm

/-- Line 143: the test `other.startswith('remotes/')`, stated on the
underlying character lists so it evaluates by `decide`. -/
def isRemoteName (s : String) : Bool :=
  List.isPrefixOf "remotes/".data s.data

/-- Lines 134-138, inner loop of the permanent pass: the first remote (in
policy order) whose qualified permanent ref is among the descendants. -/
def remoteMatch (descendants : List String) (p : String) : List String → Option String
  | [] => none
  | r :: rest =>
    if qualifyRemote r p ∈ descendants then some (qualifyRemote r p)
    else remoteMatch descendants p rest

/-- Lines 125-138, the permanent pass of `_examine_branch`: iterate the
permanent branches in order; for each, the local ref is checked before the
remote-qualified refs (remotes in policy order); the first hit is the target
reported to `_request_removal`. -/
def permTarget (descendants remotes : List String) : List String → Option String
  | [] => none
  | p :: rest =>
    if p ∈ descendants then some p
    else
      match remoteMatch descendants p remotes with
      | some t => some t
      | none => permTarget descendants remotes rest

/-- The nested priority order of the permanent pass, flattened: for each
permanent branch, its local name followed by its remote-qualified names. -/
def nestedCandidates (remotes : List String) (permanent : List String) : List String :=
  permanent.flatMap (fun p => p :: remotes.map (fun r => qualifyRemote r p))

/-- Lines 142-151, one fallback loop: offer each candidate via
`_request_removal(repo, head, other, permanent[0])`, stopping at the first
acceptance.  Evaluating the argument `permanent[0]` raises `IndexError`
before the call when the permanent list is empty. -/
def promptCandidates (branch : String) (permanent : List String) :
    St → List String → Except RunErr (Bool × St)
  | st, [] => Except.ok (false, st)
  | st, c :: rest =>
    match perm0 permanent with
    | Except.error e => Except.error e
    | Except.ok dj =>
      match request_removal st branch c dj with
      | (true, st') => Except.ok (true, st')
      | (false, st') => promptCandidates branch permanent st' rest

/-- Lines 125-151, the body of `_examine_branch` after the descendants set is
built: the permanent pass (whose `_request_removal` outcome is ignored —
the function returns either way), then the fallback pass over the
remote-qualified descendants followed by the remaining (local) ones. -/
def examineCore (branch : String) (remotes permanent : List String) (st : St)
    (descendants : List String) : Except RunErr St :=
  match permTarget descendants remotes permanent with
  | some target =>
    match perm0 permanent with
    | Except.error e => Except.error e
    | Except.ok dj => Except.ok (request_removal st branch target dj).2
  | none =>
    match promptCandidates branch permanent st (descendants.filter isRemoteName) with
    | Except.error e => Except.error e
    | Except.ok (true, st') => Except.ok st'
    | Except.ok (false, st') =>
      match promptCandidates branch permanent st'
          (descendants.filter (fun s => !(isRemoteName s))) with
      | Except.error e => Except.error e
      | Except.ok (_, st'') => Except.ok st''

/-- Lines 117-151, `_examine_branch`: run the `git branch --all --contains`
query (`cq`), remove the branch itself from the resulting set — a `KeyError`
if it is absent — and hand the descendants to the two passes. -/
def examine_branch (cq : String → Except Unit (List String))
    (remotes permanent : List String) (st : St) (branch : String) :
    Except RunErr St :=
  match cq branch with
  | Except.error _ => Except.error RunErr.backend
  | Except.ok contains =>
    let st1 : St := { st with events := st.events ++ [Event.query branch] }
    if branch ∈ contains then
      examineCore branch remotes permanent st1 (contains.erase branch)
    else Except.error RunErr.keyError

/-- Lines 268-278, the driver loop of `main`: iterate the repository's local
branches, announce and skip the permanent ones, examine every other branch.
No exception is caught here, so any error aborts the remaining iterations. -/
def runHeads (cq : String → Except Unit (List String))
    (remotes permanent : List String) : St → List String → Except RunErr St
  | st, [] => Except.ok st
  | st, h :: rest =>
    if h ∈ permanent then
      runHeads cq remotes permanent
        { st with events := st.events ++ [Event.skip h] } rest
    else
      match examine_branch cq remotes permanent st h with
      | Except.error e => Except.error e
      | Except.ok st' => runHeads cq remotes permanent st' rest

/-- Lines 235-236 plus the driver loop: `main` raises
`ClickException('No remotes nominated')` when the remote list is empty, and
otherwise processes the given head list. -/
def gitLostMain (cq : String → Except Unit (List String))
    (heads remotes permanent : List String) (st : St) : Except RunErr St :=
  if remotes = [] then Except.error RunErr.policy
  else runHeads cq remotes permanent st heads

/-- Lines 155-158 of `_attempt_removal`: the qualified name of the merge
target, `other` when no remote is given, `remotename/other` otherwise. -/
def otherRefOf : Option String → String → String
  | none, other => other
  | some rn, other => rn ++ "/" ++ other

/-- Lines 154-182, `_attempt_removal(repo, local, remotename, other)` — dead
code, no caller exists in the repository.  It is the only place performing
the `git merge-base` / `git rev-parse --verify` equality test, here supplied
by the abstract backend functions `mb` and `rv`.  The branches are written
out flat (one per answer/current combination); the effect of
`git checkout otherref` on HEAD is modelled as switching to that ref.  Note
line 181: it returns `true` whenever the equality holds, confirmed or not. -/
def attempt_removal (st : St) (localB : String) (remotename : Option String)
    (other : String) (mb : String → String → String) (rv : String → String) :
    Bool × St :=
  if st.current = some localB ∧ localB = other then (false, st)
  else if rv localB = mb localB (otherRefOf remotename other) then
    match st.answers with
    | [] =>
      (true, { st with events := st.events ++
        [Event.mergeBase localB (otherRefOf remotename other), Event.resolve localB,
         Event.prompt localB (otherRefOf remotename other)] })
    | ans :: rest =>
      if ans then
        if st.current = some localB then
          (true, { st with answers := rest,
                           current := some (otherRefOf remotename other),
                           refs := st.refs.erase localB,
                           events := st.events ++
                             [Event.mergeBase localB (otherRefOf remotename other),
                              Event.resolve localB,
                              Event.prompt localB (otherRefOf remotename other),
                              Event.checkout (otherRefOf remotename other),
                              Event.delete localB] })
        else
          (true, { st with answers := rest,
                           refs := st.refs.erase localB,
                           events := st.events ++
                             [Event.mergeBase localB (otherRefOf remotename other),
                              Event.resolve localB,
                              Event.prompt localB (otherRefOf remotename other),
                              Event.delete localB] })
      else
        (true, { st with answers := rest,
                         events := st.events ++
                           [Event.mergeBase localB (otherRefOf remotename other),
                            Event.resolve localB,
                            Event.prompt localB (otherRefOf remotename other)] })
  else
    (false, { st with events := st.events ++
      [Event.mergeBase localB (otherRefOf remotename other), Event.resolve localB] })

/-- The repository's local branches in the backend's enumeration order. -/
structure RepoState where
  heads : List String
deriving DecidableEq

/-- Line 219: the `local` component of `_get_refs()`, the run-start
inventory snapshot (a set; the list carries its contents). -/
def inventoryLocal (r : RepoState) : List String := r.heads

/-- Lines 85-114 and 254-257, `_createPermanent`: for each permanent name
with no local ref, create a local branch when exactly one nominated remote
has that branch (`remoteHas rem name`); the new ref joins the repository's
branch enumeration. -/
def createPermanents (remoteHas : String → String → Bool)
    (remotes : List String) : RepoState → List String → RepoState
  | r, [] => r
  | r, name :: rest =>
    let r' : RepoState :=
      if name ∈ r.heads then r
      else
        match remotes.filter (fun rem => remoteHas rem name) with
        | [_] => { r with heads := r.heads ++ [name] }
        | _ => r
    createPermanents remoteHas remotes r' rest

/-- Line 269: the `repo.heads` enumeration the driver loop actually
iterates, read after the optional permanent-branch creation step. -/
def headsAtLoop (remoteHas : String → String → Bool) (remotes : List String)
    (alwaysCreate : Bool) (r : RepoState) (permanent : List String) :
    List String :=
  if alwaysCreate then (createPermanents remoteHas remotes r permanent).heads
  else r.heads

/-- The pipeline of `main` relevant to the driver: permanent-branch creation
(step 2), then the branch loop over the loop-time heads. -/
def driverRun (cq : String → Except Unit (List String))
    (remoteHas : String → String → Bool) (alwaysCreate : Bool)
    (r0 : RepoState) (remotes permanent : List String) (st : St) :
    Except RunErr St :=
  gitLostMain cq (headsAtLoop remoteHas remotes alwaysCreate r0 permanent)
    remotes permanent st

/-- The prompt sequence of a trace, as (branch, target) pairs. -/
def promptsOf (l : List Event) : List (String × String) :=
  l.filterMap (fun e => match e with
    | Event.prompt b t => some (b, t)
    | _ => none)

/-- Events emitted by the executor: prompts, checkouts and deletions. -/
def isBranchEv : Event → Bool
  | Event.prompt _ _ => true
  | Event.checkout _ => true
  | Event.delete _ => true
  | _ => false

/-- Recognizer for `git merge-base` backend calls in a trace. -/
def isMergeBaseEv : Event → Bool
  | Event.mergeBase _ _ => true
  | _ => false

instance : DecidableEq (Except RunErr St) := fun x y =>
  match x, y with
  | Except.ok a, Except.ok b =>
    if h : a = b then Decidable.isTrue (by rw [h]) else Decidable.isFalse (by simp [h])
  | Except.error a, Except.error b =>
    if h : a = b then Decidable.isTrue (by rw [h]) else Decidable.isFalse (by simp [h])
  | Except.ok _, Except.error _ => Decidable.isFalse (by simp)
  | Except.error _, Except.ok _ => Decidable.isFalse (by simp)

/-- The event trace of a completed run (empty for an aborted one). -/
def runEvents (x : Except RunErr St) : List Event :=
  match x with
  | Except.ok s => s.events
  | Except.error _ => []

/-- An initial run state with an empty trace. -/
def initSt (cur : Option String) (refs : Finset String) (ans : List Bool) : St :=
  ⟨cur, refs, ans, []⟩

/-! ## Characterization of `request_removal` -/

lemma request_removal_unanswered (st : St) (b t dj : String) (h : st.answers = []) :
    request_removal st b t dj =
      (false, { st with events := st.events ++ [Event.prompt b t] }) := by
  unfold request_removal
  rw [h]

lemma request_removal_decline (st : St) (b t dj : String) (rest : List Bool)
    (h : st.answers = false :: rest) :
    request_removal st b t dj =
      (false, { st with answers := rest,
                        events := st.events ++ [Event.prompt b t] }) := by
  unfold request_removal
  rw [h]
  rfl

lemma request_removal_accept_active (st : St) (b t dj : String) (rest : List Bool)
    (h : st.answers = true :: rest) (hc : st.current = some b) :
    request_removal st b t dj =
      (true, { st with answers := rest, current := some dj,
                       refs := st.refs.erase b,
                       events := st.events ++
                         [Event.prompt b t, Event.checkout dj, Event.delete b] }) := by
  unfold request_removal
  rw [h]
  simp [hc]

lemma request_removal_accept_inactive (st : St) (b t dj : String) (rest : List Bool)
    (h : st.answers = true :: rest) (hc : st.current ≠ some b) :
    request_removal st b t dj =
      (true, { st with answers := rest,
                       refs := st.refs.erase b,
                       events := st.events ++
                         [Event.prompt b t, Event.delete b] }) := by
  unfold request_removal
  rw [h]
  simp [hc]

/-! ## Prompt-sequence helpers -/

lemma promptsOf_append (l1 l2 : List Event) :
    promptsOf (l1 ++ l2) = promptsOf l1 ++ promptsOf l2 := by
  simp [promptsOf, List.filterMap_append]

lemma promptsOf_map_prompt (b : String) (cs : List String) :
    promptsOf (cs.map (fun c => Event.prompt b c)) = cs.map (fun c => (b, c)) := by
  induction cs with
  | nil => rfl
  | cons c rest ih => simp [promptsOf] at ih ⊢; exact ih

lemma promptsOf_nil : promptsOf [] = [] := rfl

lemma promptsOf_cons_prompt (b t : String) (l : List Event) :
    promptsOf (Event.prompt b t :: l) = (b, t) :: promptsOf l := rfl

lemma promptsOf_cons_checkout (t : String) (l : List Event) :
    promptsOf (Event.checkout t :: l) = promptsOf l := rfl

lemma promptsOf_cons_delete (t : String) (l : List Event) :
    promptsOf (Event.delete t :: l) = promptsOf l := rfl

lemma request_removal_promptsOf (st : St) (b t dj : String) :
    promptsOf (request_removal st b t dj).2.events =
      promptsOf st.events ++ [(b, t)] := by
  cases hans : st.answers with
  | nil => rw [request_removal_unanswered st b t dj hans]; simp [promptsOf_append, promptsOf]
  | cons a rest =>
    cases a
    · rw [request_removal_decline st b t dj rest hans]; simp [promptsOf_append, promptsOf]
    · by_cases hc : st.current = some b
      · rw [request_removal_accept_active st b t dj rest hans hc]
        simp [promptsOf_append, promptsOf]
      · rw [request_removal_accept_inactive st b t dj rest hans hc]
        simp [promptsOf_append, promptsOf]

lemma request_removal_events (st : St) (b t dj : String) :
    ∃ new, (request_removal st b t dj).2.events = st.events ++ new ∧
      new.all isBranchEv = true := by
  cases hans : st.answers with
  | nil =>
    exact ⟨[Event.prompt b t],
      by rw [request_removal_unanswered st b t dj hans], rfl⟩
  | cons a rest =>
    cases a
    · exact ⟨[Event.prompt b t],
        by rw [request_removal_decline st b t dj rest hans], rfl⟩
    · by_cases hc : st.current = some b
      · exact ⟨[Event.prompt b t, Event.checkout dj, Event.delete b],
          by rw [request_removal_accept_active st b t dj rest hans hc], rfl⟩
      · exact ⟨[Event.prompt b t, Event.delete b],
          by rw [request_removal_accept_inactive st b t dj rest hans hc], rfl⟩

/-! ## The permanent pass as a first-match search -/

lemma remoteMatch_eq_find (d : List String) (p : String) (rs : List String) :
    remoteMatch d p rs =
      (rs.map (fun r => qualifyRemote r p)).find? (fun c => decide (c ∈ d)) := by
  induction rs with
  | nil => rfl
  | cons r rest ih =>
    by_cases hq : qualifyRemote r p ∈ d <;>
      simp [remoteMatch, hq, ih, List.find?_cons]

lemma permTarget_eq_find (d rs : List String) (perm : List String) :
    permTarget d rs perm =
      (nestedCandidates rs perm).find? (fun c => decide (c ∈ d)) := by
  induction perm with
  | nil => rfl
  | cons p rest ih =>
    have hsplit : nestedCandidates rs (p :: rest) =
        (p :: rs.map (fun r => qualifyRemote r p)) ++ nestedCandidates rs rest := by
      simp [nestedCandidates]
    rw [hsplit, List.find?_append]
    by_cases hp : p ∈ d
    · rw [List.find?_cons_of_pos _ (by simpa using hp)]
      simp [permTarget, hp]
    · rw [List.find?_cons_of_neg _ (by simpa using hp)]
      have hstep : permTarget d rs (p :: rest) =
          match remoteMatch d p rs with
          | some t => some t
          | none => permTarget d rs rest := by
        simp [permTarget, hp]
      rw [hstep, ← ih]
      have hrm := remoteMatch_eq_find d p rs
      cases h : remoteMatch d p rs with
      | some t => rw [hrm] at h; rw [h]; rfl
      | none => rw [hrm] at h; rw [h]; rfl

lemma remoteMatch_congr (d1 d2 : List String) (hmem : ∀ x, x ∈ d1 ↔ x ∈ d2)
    (p : String) (rs : List String) :
    remoteMatch d1 p rs = remoteMatch d2 p rs := by
  induction rs with
  | nil => rfl
  | cons r rest ih =>
    by_cases hq : qualifyRemote r p ∈ d1
    · simp [remoteMatch, hq, (hmem _).mp hq]
    · have hq2 : qualifyRemote r p ∉ d2 := fun h => hq ((hmem _).mpr h)
      simp [remoteMatch, hq, hq2, ih]

lemma permTarget_congr (d1 d2 : List String) (hmem : ∀ x, x ∈ d1 ↔ x ∈ d2)
    (rs : List String) (perm : List String) :
    permTarget d1 rs perm = permTarget d2 rs perm := by
  induction perm with
  | nil => rfl
  | cons p rest ih =>
    by_cases hp : p ∈ d1
    · simp [permTarget, hp, (hmem _).mp hp]
    · have hp2 : p ∉ d2 := fun h => hp ((hmem _).mpr h)
      simp [permTarget, hp, hp2, remoteMatch_congr d1 d2 hmem p rs, ih]

/-! ## Shape of the fallback candidate loop -/

lemma promptCandidates_nilPerm (b : String) (st : St) (c : String) (cs : List String) :
    promptCandidates b [] st (c :: cs) = Except.error RunErr.indexError := rfl

lemma promptCandidates_shape (b p : String) (ps : List String) (cands : List String) (st : St) :
    ∃ res st' new,
      promptCandidates b (p :: ps) st cands = Except.ok (res, st') ∧
      st'.events = st.events ++ new ∧
      (res = false →
        st'.refs = st.refs ∧ st'.current = st.current ∧
        new = cands.map (fun c => Event.prompt b c)) ∧
      (res = true →
        st'.refs = st.refs.erase b ∧
        ∃ pre c suf, cands = pre ++ c :: suf ∧
          ((st.current = some b ∧ st'.current = some p ∧
             new = pre.map (fun x => Event.prompt b x) ++
               [Event.prompt b c, Event.checkout p, Event.delete b]) ∨
           (st.current ≠ some b ∧ st'.current = st.current ∧
             new = pre.map (fun x => Event.prompt b x) ++
               [Event.prompt b c, Event.delete b]))) := by
  induction cands generalizing st with
  | nil =>
    exact ⟨false, st, [], rfl, by simp, fun _ => ⟨rfl, rfl, rfl⟩,
      fun h => Bool.noConfusion h⟩
  | cons c rest ih =>
    have hpc : promptCandidates b (p :: ps) st (c :: rest) =
        match request_removal st b c p with
        | (true, st') => Except.ok (true, st')
        | (false, st') => promptCandidates b (p :: ps) st' rest := rfl
    cases hans : st.answers with
    | nil =>
      rw [hpc, request_removal_unanswered st b c p hans]
      obtain ⟨res, st', new, h1, h2, h3, h4⟩ :=
        ih { st with events := st.events ++ [Event.prompt b c] }
      refine ⟨res, st', Event.prompt b c :: new, h1, by rw [h2]; simp, ?_, ?_⟩
      · intro hres
        obtain ⟨a1, a2, a3⟩ := h3 hres
        exact ⟨a1, a2, by simp [a3]⟩
      · intro hres
        obtain ⟨a1, pre, c', suf, hsplit, hdisj⟩ := h4 hres
        refine ⟨a1, c :: pre, c', suf, by simp [hsplit], ?_⟩
        rcases hdisj with ⟨b1, b2, b3⟩ | ⟨b1, b2, b3⟩
        · exact Or.inl ⟨b1, b2, by simp [b3]⟩
        · exact Or.inr ⟨b1, b2, by simp [b3]⟩
    | cons a rest' =>
      cases a with
      | false =>
        rw [hpc, request_removal_decline st b c p rest' hans]
        obtain ⟨res, st', new, h1, h2, h3, h4⟩ :=
          ih { st with answers := rest', events := st.events ++ [Event.prompt b c] }
        refine ⟨res, st', Event.prompt b c :: new, h1, by rw [h2]; simp, ?_, ?_⟩
        · intro hres
          obtain ⟨a1, a2, a3⟩ := h3 hres
          exact ⟨a1, a2, by simp [a3]⟩
        · intro hres
          obtain ⟨a1, pre, c', suf, hsplit, hdisj⟩ := h4 hres
          refine ⟨a1, c :: pre, c', suf, by simp [hsplit], ?_⟩
          rcases hdisj with ⟨b1, b2, b3⟩ | ⟨b1, b2, b3⟩
          · exact Or.inl ⟨b1, b2, by simp [b3]⟩
          · exact Or.inr ⟨b1, b2, by simp [b3]⟩
      | true =>
        by_cases hc : st.current = some b
        · rw [hpc, request_removal_accept_active st b c p rest' hans hc]
          refine ⟨true, _, [Event.prompt b c, Event.checkout p, Event.delete b],
            rfl, by simp, fun h => Bool.noConfusion h, fun _ => ?_⟩
          exact ⟨rfl, [], c, rest, rfl, Or.inl ⟨hc, rfl, by simp⟩⟩
        · rw [hpc, request_removal_accept_inactive st b c p rest' hans hc]
          refine ⟨true, _, [Event.prompt b c, Event.delete b],
            rfl, by simp, fun h => Bool.noConfusion h, fun _ => ?_⟩
          exact ⟨rfl, [], c, rest, rfl, Or.inr ⟨hc, rfl, by simp⟩⟩

lemma promptCandidates_allFalse (b p : String) (ps : List String) (cands : List String)
    (st : St) (h : ∀ a ∈ st.answers, a = false) :
    ∃ st', promptCandidates b (p :: ps) st cands = Except.ok (false, st') ∧
      st'.refs = st.refs ∧ st'.current = st.current ∧
      st'.events = st.events ++ cands.map (fun c => Event.prompt b c) ∧
      (∀ a ∈ st'.answers, a = false) := by
  induction cands generalizing st with
  | nil => exact ⟨st, rfl, rfl, rfl, by simp, h⟩
  | cons c rest ih =>
    have hpc : promptCandidates b (p :: ps) st (c :: rest) =
        match request_removal st b c p with
        | (true, st') => Except.ok (true, st')
        | (false, st') => promptCandidates b (p :: ps) st' rest := rfl
    cases hans : st.answers with
    | nil =>
      rw [hpc, request_removal_unanswered st b c p hans]
      obtain ⟨st', h1, h2, h3, h4, h5⟩ :=
        ih { st with events := st.events ++ [Event.prompt b c] } h
      exact ⟨st', h1, h2, h3, by rw [h4]; simp, h5⟩
    | cons a rest' =>
      have ha : a = false := h a (by rw [hans]; exact List.mem_cons_self a rest')
      subst ha
      rw [hpc, request_removal_decline st b c p rest' hans]
      obtain ⟨st', h1, h2, h3, h4, h5⟩ :=
        ih { st with answers := rest', events := st.events ++ [Event.prompt b c] }
          (fun a ha' => h a (by rw [hans]; exact List.mem_cons_of_mem _ ha'))
      exact ⟨st', h1, h2, h3, by rw [h4]; simp, h5⟩

/-! ## Trace bookkeeping through the driver -/

/-- Events the live driver can emit (everything except the merge-base and
rev-parse calls, which only `_attempt_removal` performs). -/
def isLiveEv : Event → Bool
  | Event.mergeBase _ _ => false
  | Event.resolve _ => false
  | _ => true

lemma isLiveEv_of_isBranchEv (e : Event) (h : isBranchEv e = true) :
    isLiveEv e = true := by
  cases e <;> simp_all [isBranchEv, isLiveEv]

lemma all_isBranchEv_promptMap (b : String) (l : List String) :
    (l.map (fun x => Event.prompt b x)).all isBranchEv = true := by
  induction l <;> simp_all [isBranchEv]

lemma examineCore_events (b : String) (rs perm d : List String) (st st' : St)
    (h : examineCore b rs perm st d = Except.ok st') :
    ∃ new, st'.events = st.events ++ new ∧ new.all isBranchEv = true := by
  cases perm with
  | nil =>
    have h0 : examineCore b rs [] st d =
        match promptCandidates b [] st (d.filter isRemoteName) with
        | Except.error e => Except.error e
        | Except.ok (true, st1) => Except.ok st1
        | Except.ok (false, st1) =>
          match promptCandidates b [] st1 (d.filter (fun s => !(isRemoteName s))) with
          | Except.error e => Except.error e
          | Except.ok (_, st2) => Except.ok st2 := rfl
    rw [h0] at h
    cases hf1 : d.filter isRemoteName with
    | cons c cs => rw [hf1, promptCandidates_nilPerm] at h; cases h
    | nil =>
      rw [hf1] at h
      have h' : (match promptCandidates b [] st
            (d.filter (fun s => !(isRemoteName s))) with
          | Except.error e => Except.error e
          | Except.ok (_, st2) => Except.ok st2) = Except.ok st' := h
      cases hf2 : d.filter (fun s => !(isRemoteName s)) with
      | cons c cs => rw [hf2, promptCandidates_nilPerm] at h'; cases h'
      | nil =>
        rw [hf2] at h'
        cases h'
        exact ⟨[], by simp, rfl⟩
  | cons p ps =>
    cases hT : permTarget d rs (p :: ps) with
    | some t =>
      have h0 : examineCore b rs (p :: ps) st d =
          Except.ok (request_removal st b t p).2 := by
        simp [examineCore, hT, perm0]
      rw [h0] at h
      cases h
      exact request_removal_events st b t p
    | none =>
      have h0 : examineCore b rs (p :: ps) st d =
          match promptCandidates b (p :: ps) st (d.filter isRemoteName) with
          | Except.error e => Except.error e
          | Except.ok (true, st1) => Except.ok st1
          | Except.ok (false, st1) =>
            match promptCandidates b (p :: ps) st1
                (d.filter (fun s => !(isRemoteName s))) with
            | Except.error e => Except.error e
            | Except.ok (_, st2) => Except.ok st2 := by
        simp [examineCore, hT]
      rw [h0] at h
      obtain ⟨res1, st1, new1, e1, ev1, f1, t1⟩ :=
        promptCandidates_shape b p ps (d.filter isRemoteName) st
      rw [e1] at h
      have hall1 : new1.all isBranchEv = true := by
        cases res1
        · obtain ⟨_, _, hn⟩ := f1 rfl
          rw [hn]; exact all_isBranchEv_promptMap b _
        · obtain ⟨_, pre, c, suf, _, hdisj⟩ := t1 rfl
          rcases hdisj with ⟨_, _, hn⟩ | ⟨_, _, hn⟩ <;>
            · rw [hn]
              simp [List.all_append, all_isBranchEv_promptMap, isBranchEv]
      cases res1 with
      | true =>
        cases h
        exact ⟨new1, ev1, hall1⟩
      | false =>
        have h' : (match promptCandidates b (p :: ps) st1
              (d.filter (fun s => !(isRemoteName s))) with
            | Except.error e => Except.error e
            | Except.ok (_, st2) => Except.ok st2) = Except.ok st' := h
        obtain ⟨res2, st2, new2, e2, ev2, f2, t2⟩ :=
          promptCandidates_shape b p ps (d.filter (fun s => !(isRemoteName s))) st1
        rw [e2] at h'
        have hall2 : new2.all isBranchEv = true := by
          cases res2
          · obtain ⟨_, _, hn⟩ := f2 rfl
            rw [hn]; exact all_isBranchEv_promptMap b _
          · obtain ⟨_, pre, c, suf, _, hdisj⟩ := t2 rfl
            rcases hdisj with ⟨_, _, hn⟩ | ⟨_, _, hn⟩ <;>
              · rw [hn]
                simp [List.all_append, all_isBranchEv_promptMap, isBranchEv]
        cases h'
        exact ⟨new1 ++ new2, by rw [ev2, ev1]; simp,
          by simp [List.all_append, hall1, hall2]⟩

lemma examine_branch_events (cq : String → Except Unit (List String))
    (rs perm : List String) (st st' : St) (h0 : String)
    (h : examine_branch cq rs perm st h0 = Except.ok st') :
    ∃ new, st'.events = st.events ++ (Event.query h0 :: new) ∧
      new.all isBranchEv = true := by
  unfold examine_branch at h
  cases hcq : cq h0 with
  | error e => rw [hcq] at h; cases h
  | ok contains =>
    rw [hcq] at h
    have h' : (if h0 ∈ contains then
          examineCore h0 rs perm
            { st with events := st.events ++ [Event.query h0] }
            (contains.erase h0)
        else Except.error RunErr.keyError) = Except.ok st' := h
    by_cases hb : h0 ∈ contains
    · rw [if_pos hb] at h'
      obtain ⟨new, hnew, hall⟩ := examineCore_events h0 rs perm _ _ _ h'
      exact ⟨new, by rw [hnew]; simp, hall⟩
    · rw [if_neg hb] at h'; cases h'

lemma runHeads_nil (cq : String → Except Unit (List String)) (rs perm : List String)
    (st : St) : runHeads cq rs perm st [] = Except.ok st := rfl

lemma runHeads_cons (cq : String → Except Unit (List String)) (rs perm : List String)
    (st : St) (h0 : String) (rest : List String) :
    runHeads cq rs perm st (h0 :: rest) =
      if h0 ∈ perm then
        runHeads cq rs perm { st with events := st.events ++ [Event.skip h0] } rest
      else
        match examine_branch cq rs perm st h0 with
        | Except.error e => Except.error e
        | Except.ok st' => runHeads cq rs perm st' rest := rfl

lemma runHeads_events (cq : String → Except Unit (List String)) (rs perm : List String)
    (st st' : St) (hs : List String)
    (h : runHeads cq rs perm st hs = Except.ok st') :
    ∃ new, st'.events = st.events ++ new ∧ new.all isLiveEv = true := by
  induction hs generalizing st with
  | nil => cases h; exact ⟨[], by simp, rfl⟩
  | cons h0 rest ih =>
    rw [runHeads_cons] at h
    by_cases hp : h0 ∈ perm
    · rw [if_pos hp] at h
      obtain ⟨new, hnew, hall⟩ := ih _ h
      exact ⟨Event.skip h0 :: new, by rw [hnew]; simp, by simpa [isLiveEv] using hall⟩
    · rw [if_neg hp] at h
      cases he : examine_branch cq rs perm st h0 with
      | error e => rw [he] at h; cases h
      | ok st1 =>
        rw [he] at h
        obtain ⟨new1, hnew1, hall1⟩ := examine_branch_events cq rs perm st st1 h0 he
        obtain ⟨new, hnew, hall⟩ := ih _ h
        refine ⟨(Event.query h0 :: new1) ++ new, by rw [hnew, hnew1]; simp, ?_⟩
        have : new1.all isLiveEv = true := by
          rw [List.all_eq_true] at hall1 ⊢
          exact fun e he' => isLiveEv_of_isBranchEv e (hall1 e he')
        simp [List.all_append, this, hall, isLiveEv]

lemma count_zero_of_all_branchEv (new : List Event) (hall : new.all isBranchEv = true)
    (x : String) :
    new.count (Event.skip x) = 0 ∧ new.count (Event.query x) = 0 := by
  rw [List.all_eq_true] at hall
  constructor <;> rw [List.count_eq_zero] <;> intro hmem <;>
    simpa [isBranchEv] using hall _ hmem

lemma runHeads_counts (cq : String → Except Unit (List String)) (rs perm : List String)
    (st st' : St) (hs : List String)
    (h : runHeads cq rs perm st hs = Except.ok st') (x : String) :
    st'.events.count (Event.skip x) =
      st.events.count (Event.skip x) +
        (hs.filter (fun h0 => decide (h0 ∈ perm))).count x ∧
    st'.events.count (Event.query x) =
      st.events.count (Event.query x) +
        (hs.filter (fun h0 => !(decide (h0 ∈ perm)))).count x := by
  induction hs generalizing st with
  | nil => cases h; simp
  | cons h0 rest ih =>
    rw [runHeads_cons] at h
    by_cases hp : h0 ∈ perm
    · rw [if_pos hp] at h
      obtain ⟨c1, c2⟩ := ih _ h
      constructor
      · rw [c1]
        by_cases hx : h0 = x
        · subst hx
          simp [hp, List.count_append, List.count_cons, List.filter_cons]
          omega
        · simp [hp, hx, List.count_append, List.count_cons, List.filter_cons]
      · rw [c2]
        simp [hp, List.count_append, List.filter_cons]
    · rw [if_neg hp] at h
      cases he : examine_branch cq rs perm st h0 with
      | error e => rw [he] at h; cases h
      | ok st1 =>
        rw [he] at h
        obtain ⟨new1, hnew1, hall1⟩ := examine_branch_events cq rs perm st st1 h0 he
        obtain ⟨z1, z2⟩ := count_zero_of_all_branchEv new1 hall1 x
        obtain ⟨c1, c2⟩ := ih _ h
        constructor
        · rw [c1, hnew1]
          simp [hp, List.count_append, List.count_cons, List.filter_cons, z1]
        · rw [c2, hnew1]
          by_cases hx : h0 = x
          · subst hx
            simp [hp, List.count_append, List.count_cons, List.filter_cons, z2]
            omega
          · simp [hp, hx, List.count_append, List.count_cons, List.filter_cons, z2]

lemma runHeads_error_stop (cq : String → Except Unit (List String))
    (rs perm : List String) (st : St) (pre : List String) (h0 : String) (e : RunErr)
    (herr : runHeads cq rs perm st (pre ++ [h0]) = Except.error e)
    (post : List String) :
    runHeads cq rs perm st (pre ++ h0 :: post) = Except.error e := by
  induction pre generalizing st with
  | nil =>
    simp only [List.nil_append] at herr ⊢
    rw [runHeads_cons] at herr ⊢
    by_cases hp : h0 ∈ perm
    · rw [if_pos hp] at herr
      rw [runHeads_nil] at herr
      cases herr
    · rw [if_neg hp] at herr ⊢
      cases he : examine_branch cq rs perm st h0 with
      | error e' => rw [he] at herr; exact herr
      | ok st1 =>
        rw [he] at herr
        have herr' : runHeads cq rs perm st1 [] = Except.error e := herr
        rw [runHeads_nil] at herr'
        cases herr'
  | cons q pre' ih =>
    simp only [List.cons_append] at herr ⊢
    rw [runHeads_cons] at herr ⊢
    by_cases hp : q ∈ perm
    · rw [if_pos hp] at herr ⊢
      exact ih _ herr
    · rw [if_neg hp] at herr ⊢
      cases he : examine_branch cq rs perm st q with
      | error e' => rw [he] at herr; exact herr
      | ok st1 =>
        rw [he] at herr
        have herr' : runHeads cq rs perm st1 (pre' ++ [h0]) = Except.error e := herr
        exact ih _ herr'

lemma mem_promptMap (b : String) (l : List String) (e : Event)
    (h : e ∈ l.map (fun x => Event.prompt b x)) :
    ∃ b0 t0, e = Event.prompt b0 t0 := by
  obtain ⟨x, _, rfl⟩ := List.mem_map.mp h
  exact ⟨b, x, rfl⟩

/-! ## Claim theorems -/

/-- C1: whenever some permanent branch is reachable among a branch's
descendants — locally or as `remotes/<remote>/<perm>` for a nominated
remote — the analyzer reports exactly one target: the first match obtained
by iterating the permanent branches in order, checking each one's local ref
before its remote-qualified refs (remotes in policy order).  The reported
target is therefore always permanent-derived, never a non-permanent
descendant. -/
theorem permanent_priority_first_match (b : String) (rs perm d : List String) (st : St)
    (hmatch : ∃ c ∈ nestedCandidates rs perm, c ∈ d) :
    ∃ t st', permTarget d rs perm = some t ∧
      (nestedCandidates rs perm).find? (fun c => decide (c ∈ d)) = some t ∧
      t ∈ d ∧
      (∃ p ∈ perm, t = p ∨ ∃ r ∈ rs, t = qualifyRemote r p) ∧
      examineCore b rs perm st d = Except.ok st' ∧
      promptsOf st'.events = promptsOf st.events ++ [(b, t)] := by
  cases perm with
  | nil => simp [nestedCandidates] at hmatch
  | cons p0 ps0 =>
    obtain ⟨c0, hc0mem, hc0d⟩ := hmatch
    have hfind : ((nestedCandidates rs (p0 :: ps0)).find?
        (fun c => decide (c ∈ d))).isSome := by
      rw [List.find?_isSome]
      exact ⟨c0, hc0mem, by simpa using hc0d⟩
    obtain ⟨t, ht⟩ := Option.isSome_iff_exists.mp hfind
    have hpt : permTarget d rs (p0 :: ps0) = some t := by
      rw [permTarget_eq_find]; exact ht
    have htd : t ∈ d := by simpa using List.find?_some ht
    have htn : t ∈ nestedCandidates rs (p0 :: ps0) := List.mem_of_find?_eq_some ht
    have hform : ∃ p ∈ (p0 :: ps0), t = p ∨ ∃ r ∈ rs, t = qualifyRemote r p := by
      rw [nestedCandidates, List.mem_flatMap] at htn
      obtain ⟨p, hp, hmem⟩ := htn
      rcases List.mem_cons.mp hmem with h | h
      · exact ⟨p, hp, Or.inl h⟩
      · obtain ⟨r, hr, hq⟩ := List.mem_map.mp h
        exact ⟨p, hp, Or.inr ⟨r, hr, hq.symm⟩⟩
    have h0 : examineCore b rs (p0 :: ps0) st d =
        Except.ok (request_removal st b t p0).2 := by
      simp [examineCore, hpt, perm0]
    exact ⟨t, (request_removal st b t p0).2, hpt, ht, htd, hform, h0,
      request_removal_promptsOf st b t p0⟩

theorem permanent_priority_first_match_witness :
    ∃ t st', permTarget ["main", "develop", "dev"] ["origin"] ["main", "develop"] = some t ∧
      (nestedCandidates ["origin"] ["main", "develop"]).find?
        (fun c => decide (c ∈ ["main", "develop", "dev"])) = some t ∧
      t ∈ ["main", "develop", "dev"] ∧
      (∃ p ∈ ["main", "develop"], t = p ∨ ∃ r ∈ ["origin"], t = qualifyRemote r p) ∧
      examineCore "b" ["origin"] ["main", "develop"]
        (initSt none {"b"} []) ["main", "develop", "dev"] = Except.ok st' ∧
      promptsOf st'.events = promptsOf (initSt none {"b"} []).events ++ [("b", t)] :=
  permanent_priority_first_match "b" ["origin"] ["main", "develop"]
    ["main", "develop", "dev"] (initSt none {"b"} []) (by decide)

/-- C4: the executor's confirmation prompt defaults to decline — an
unanswered (exhausted) response or an explicit "no" yields `false` — and a
declined prompt leaves the local ref set, the active checkout and everything
else untouched: the only observable effect is the prompt itself. -/
theorem decline_no_side_effects (st : St) (b t dj : String)
    (h : st.answers = [] ∨ ∃ rest, st.answers = false :: rest) :
    (request_removal st b t dj).1 = false ∧
    (request_removal st b t dj).2.refs = st.refs ∧
    (request_removal st b t dj).2.current = st.current ∧
    (request_removal st b t dj).2.events = st.events ++ [Event.prompt b t] := by
  rcases h with h | ⟨rest, h⟩
  · rw [request_removal_unanswered st b t dj h]
    exact ⟨rfl, rfl, rfl, rfl⟩
  · rw [request_removal_decline st b t dj rest h]
    exact ⟨rfl, rfl, rfl, rfl⟩

theorem decline_no_side_effects_witness :
    (request_removal (initSt (some "feat") {"feat"} []) "feat" "main" "main").1 = false ∧
    (request_removal (initSt (some "feat") {"feat"} []) "feat" "main" "main").2.refs =
      (initSt (some "feat") {"feat"} []).refs ∧
    (request_removal (initSt (some "feat") {"feat"} []) "feat" "main" "main").2.current =
      (initSt (some "feat") {"feat"} []).current ∧
    (request_removal (initSt (some "feat") {"feat"} []) "feat" "main" "main").2.events =
      (initSt (some "feat") {"feat"} []).events ++ [Event.prompt "feat" "main"] :=
  decline_no_side_effects (initSt (some "feat") {"feat"} []) "feat" "main" "main"
    (Or.inl rfl)

/-- C10: the descendants set handed to the two passes is exactly the
`--contains` query result minus the examined branch itself (so the branch is
never its own descendant), and when the query result unexpectedly lacks the
branch's own name the computation fails (`set.remove` raises `KeyError`)
instead of proceeding. -/
theorem descendants_excludes_self (cq : String → Except Unit (List String))
    (rs perm : List String) (st : St) (b : String) (contains : List String)
    (hcq : cq b = Except.ok contains) :
    (b ∉ contains → examine_branch cq rs perm st b = Except.error RunErr.keyError) ∧
    (b ∈ contains → contains.Nodup →
      b ∉ contains.erase b ∧
      (∀ x, x ∈ contains.erase b ↔ x ∈ contains ∧ x ≠ b) ∧
      examine_branch cq rs perm st b =
        examineCore b rs perm
          { st with events := st.events ++ [Event.query b] }
          (contains.erase b)) := by
  have hred : examine_branch cq rs perm st b =
      (if b ∈ contains then
        examineCore b rs perm
          { st with events := st.events ++ [Event.query b] } (contains.erase b)
      else Except.error RunErr.keyError) := by
    unfold examine_branch
    rw [hcq]
  constructor
  · intro hb
    rw [hred, if_neg hb]
  · intro hb hnod
    refine ⟨List.Nodup.not_mem_erase hnod, fun x => ?_, ?_⟩
    · rw [List.Nodup.mem_erase_iff hnod]
      tauto
    · rw [hred, if_pos hb]

theorem descendants_excludes_self_witness :
    ("b" ∉ List.erase ["b", "x"] "b") ∧
    examine_branch (fun _ => Except.ok ["x"]) [] ["m"] (initSt none {} []) "b" =
      Except.error RunErr.keyError := by
  constructor
  · exact ((descendants_excludes_self (fun _ => Except.ok ["b", "x"]) [] ["m"]
      (initSt none {} []) "b" ["b", "x"] rfl).2 (by decide) (by decide)).1
  · exact (descendants_excludes_self (fun _ => Except.ok ["x"]) [] ["m"]
      (initSt none {} []) "b" ["x"] rfl).1 (by decide)

/-- C2: whatever the examination of a non-permanent branch `b` does, its
trace extension has one of two shapes.  If `b` is the active checkout, either
nothing but prompts happen (no deletion), or the trace ends with exactly one
checkout — whose target is the first permanent branch `p`, the `defaultJump`
passed to `_request_removal` at every call site — immediately followed by the
deletion of `b`, and at that point the active checkout is `p`, not `b`.  If
`b` is not the active checkout, no checkout switch occurs at all. -/
theorem active_branch_checkout_before_delete (b p : String) (ps rs d : List String)
    (st st' : St) (hb : b ∉ p :: ps)
    (hok : examineCore b rs (p :: ps) st d = Except.ok st') :
    ∃ new, st'.events = st.events ++ new ∧
      (st.current = some b →
        ((∀ e ∈ new, ∃ b0 t0, e = Event.prompt b0 t0) ∧ st'.refs = st.refs) ∨
        (∃ pre, (∀ e ∈ pre, ∃ b0 t0, e = Event.prompt b0 t0) ∧
          new = pre ++ [Event.checkout p, Event.delete b] ∧
          st'.current = some p ∧ st'.current ≠ some b)) ∧
      (st.current ≠ some b → ∀ e ∈ new, ∀ c, e ≠ Event.checkout c) := by
  have hbp : b ≠ p := fun h => hb (h ▸ List.mem_cons_self p ps)
  cases hT : permTarget d rs (p :: ps) with
  | some t =>
    have h0 : examineCore b rs (p :: ps) st d =
        Except.ok (request_removal st b t p).2 := by
      simp [examineCore, hT, perm0]
    rw [h0] at hok
    injection hok with h1
    subst h1
    cases hans : st.answers with
    | nil =>
      rw [request_removal_unanswered st b t p hans]
      refine ⟨[Event.prompt b t], by simp, fun _ => Or.inl ⟨?_, rfl⟩, fun _ => ?_⟩
      · intro e he
        simp at he
        exact ⟨b, t, he⟩
      · intro e he c
        simp at he
        simp [he]
    | cons a rest =>
      cases a
      · rw [request_removal_decline st b t p rest hans]
        refine ⟨[Event.prompt b t], by simp, fun _ => Or.inl ⟨?_, rfl⟩, fun _ => ?_⟩
        · intro e he
          simp at he
          exact ⟨b, t, he⟩
        · intro e he c
          simp at he
          simp [he]
      · by_cases hc : st.current = some b
        · rw [request_removal_accept_active st b t p rest hans hc]
          refine ⟨[Event.prompt b t, Event.checkout p, Event.delete b], by simp,
            fun _ => Or.inr ⟨[Event.prompt b t], ?_, by simp, rfl, ?_⟩,
            fun hneq => absurd hc hneq⟩
          · intro e he
            simp at he
            exact ⟨b, t, he⟩
          · simp [Ne.symm hbp]
        · rw [request_removal_accept_inactive st b t p rest hans hc]
          refine ⟨[Event.prompt b t, Event.delete b], by simp,
            fun hcur => absurd hcur hc, fun _ => ?_⟩
          intro e he c
          rcases (by simpa using he : e = Event.prompt b t ∨ e = Event.delete b) with
            rfl | rfl <;> simp
  | none =>
    have h0 : examineCore b rs (p :: ps) st d =
        match promptCandidates b (p :: ps) st (d.filter isRemoteName) with
        | Except.error e => Except.error e
        | Except.ok (true, st1) => Except.ok st1
        | Except.ok (false, st1) =>
          match promptCandidates b (p :: ps) st1
              (d.filter (fun s => !(isRemoteName s))) with
          | Except.error e => Except.error e
          | Except.ok (_, st2) => Except.ok st2 := by
      simp [examineCore, hT]
    rw [h0] at hok
    obtain ⟨res1, st1, new1, e1, ev1, f1, t1⟩ :=
      promptCandidates_shape b p ps (d.filter isRemoteName) st
    rw [e1] at hok
    cases res1 with
    | true =>
      have hok' : Except.ok st1 = Except.ok st' := hok
      injection hok' with h1
      subst h1
      obtain ⟨hrefs, pre, c, suf, hsplit, hdisj⟩ := t1 rfl
      rcases hdisj with ⟨hcur, hcur', hn⟩ | ⟨hcur, hcur', hn⟩
      · refine ⟨new1, ev1, fun _ => Or.inr
          ⟨pre.map (fun x => Event.prompt b x) ++ [Event.prompt b c], ?_,
            by rw [hn]; simp, hcur', by rw [hcur']; simp [Ne.symm hbp]⟩,
          fun hneq => absurd hcur hneq⟩
        intro e he
        rcases List.mem_append.mp he with he' | he'
        · exact mem_promptMap b pre e he'
        · simp at he'
          exact ⟨b, c, he'⟩
      · refine ⟨new1, ev1, fun hcur0 => absurd hcur0 hcur, fun _ => ?_⟩
        intro e he c0
        rw [hn] at he
        rcases List.mem_append.mp he with he' | he'
        · obtain ⟨b0, t0, rfl⟩ := mem_promptMap b pre e he'
          simp
        · rcases (by simpa using he' : e = Event.prompt b c ∨ e = Event.delete b) with
            rfl | rfl <;> simp
    | false =>
      have hok' : (match promptCandidates b (p :: ps) st1
            (d.filter (fun s => !(isRemoteName s))) with
          | Except.error e => Except.error e
          | Except.ok (_, st2) => Except.ok st2) = Except.ok st' := hok
      obtain ⟨hrefs1, hcur1, hn1⟩ := f1 rfl
      obtain ⟨res2, st2, new2, e2, ev2, f2, t2⟩ :=
        promptCandidates_shape b p ps (d.filter (fun s => !(isRemoteName s))) st1
      rw [e2] at hok'
      have hok'' : (Except.ok st2 : Except RunErr St) = Except.ok st' := by
        cases res2 <;> exact hok'
      injection hok'' with h1
      subst h1
      refine ⟨new1 ++ new2, by rw [ev2, ev1]; simp, ?_, ?_⟩
      · intro hcur
        cases res2 with
        | false =>
          obtain ⟨hrefs2, hcur2, hn2⟩ := f2 rfl
          refine Or.inl ⟨?_, by rw [hrefs2, hrefs1]⟩
          intro e he
          rcases List.mem_append.mp he with he' | he'
          · exact mem_promptMap b _ e (hn1 ▸ he')
          · exact mem_promptMap b _ e (hn2 ▸ he')
        | true =>
          obtain ⟨hrefs2, pre, c, suf, hsplit, hdisj⟩ := t2 rfl
          rcases hdisj with ⟨hcur2, hcur2', hn2⟩ | ⟨hcur2, hcur2', hn2⟩
          · refine Or.inr ⟨new1 ++ (pre.map (fun x => Event.prompt b x) ++
              [Event.prompt b c]), ?_, by rw [hn2]; simp, hcur2',
              by rw [hcur2']; simp [Ne.symm hbp]⟩
            intro e he
            rcases List.mem_append.mp he with he' | he'
            · exact mem_promptMap b _ e (hn1 ▸ he')
            · rcases List.mem_append.mp he' with he'' | he''
              · exact mem_promptMap b pre e he''
              · simp at he''
                exact ⟨b, c, he''⟩
          · rw [hcur1] at hcur2
            exact absurd hcur hcur2
      · intro hneq
        intro e he c0
        rcases List.mem_append.mp he with he' | he'
        · obtain ⟨b0, t0, rfl⟩ := mem_promptMap b _ e (hn1 ▸ he')
          simp
        · cases res2 with
          | false =>
            obtain ⟨_, _, hn2⟩ := f2 rfl
            obtain ⟨b0, t0, rfl⟩ := mem_promptMap b _ e (hn2 ▸ he')
            simp
          | true =>
            obtain ⟨_, pre, c, suf, hsplit, hdisj⟩ := t2 rfl
            rcases hdisj with ⟨hcur2, hcur2', hn2⟩ | ⟨hcur2, hcur2', hn2⟩
            · rw [hcur1] at hcur2
              exact absurd hcur2 hneq
            · rw [hn2] at he'
              rcases List.mem_append.mp he' with he'' | he''
              · obtain ⟨b0, t0, rfl⟩ := mem_promptMap b pre e he''
                simp
              · rcases (by simpa using he'' :
                    e = Event.prompt b c ∨ e = Event.delete b) with rfl | rfl <;> simp

theorem active_branch_checkout_before_delete_witness :
    ("feat" ∉ ["main"]) ∧
    ∃ st', examineCore "feat" ["origin"] ["main"]
        (initSt (some "feat") {"feat", "main"} [true]) ["main"] = Except.ok st' ∧
      ∃ new, st'.events = (initSt (some "feat") {"feat", "main"} [true]).events ++ new := by
  obtain ⟨new, hnew, -⟩ := active_branch_checkout_before_delete "feat" "main" []
    ["origin"] ["main"] (initSt (some "feat") {"feat", "main"} [true])
    (⟨some "main", ({"feat", "main"} : Finset String).erase "feat", [],
      [Event.prompt "feat" "main", Event.checkout "main", Event.delete "feat"]⟩ : St)
    (by decide) (by decide)
  exact ⟨by decide, _, by decide, new, hnew⟩

/-- C3 counterexample: the driver loop of `main` has no exception handler,
so a backend failure while examining the first branch aborts the entire run
with a backend error — which is neither a policy error nor an inventory
failure — and the second branch is never examined, contradicting the claimed
per-branch fail-soft behaviour. -/
theorem backend_error_aborts_run_cex :
    gitLostMain (fun b => if b = "b1" then Except.error () else Except.ok [b])
      ["b1", "b2"] ["origin"] ["main"]
      (initSt (some "main") {"b1", "b2", "main"} []) =
      Except.error RunErr.backend ∧
    RunErr.backend ≠ RunErr.policy := by decide

/-- C3 amended: an error raised while processing a branch (a backend failure
during its analysis included) is not caught at the branch's boundary: it
aborts the whole run with that error, and the branches after the failing one
are never examined — the run's outcome is the same whatever follows the
failing branch. -/
theorem backend_error_aborts_run (cq : String → Except Unit (List String))
    (rs perm : List String) (st : St) (pre : List String) (h0 : String)
    (e : RunErr)
    (herr : runHeads cq rs perm st (pre ++ [h0]) = Except.error e)
    (post : List String) :
    runHeads cq rs perm st (pre ++ h0 :: post) = Except.error e :=
  runHeads_error_stop cq rs perm st pre h0 e herr post

theorem backend_error_aborts_run_witness :
    runHeads (fun b => if b = "b1" then Except.error () else Except.ok [b])
      ["origin"] ["main"] (initSt (some "main") {"b1", "b2", "main"} [])
      ([] ++ "b1" :: ["b2"]) = Except.error RunErr.backend :=
  backend_error_aborts_run (fun b => if b = "b1" then Except.error () else Except.ok [b])
    ["origin"] ["main"] (initSt (some "main") {"b1", "b2", "main"} [])
    [] "b1" RunErr.backend (by decide) ["b2"]

/-- C5 counterexample: a full run of the live path confirms and deletes a
branch without ever issuing a `git merge-base` call — the deletion is
guarded only by the `--contains` membership, not by the
`mergeBase(branch, target) = resolveCommit(branch)` equality test the claim
asserts. -/
theorem delete_without_mergebase_cex :
    (runEvents (gitLostMain (fun _ => Except.ok ["feat", "main"]) ["feat", "main"]
      ["origin"] ["main"] (initSt (some "main") {"feat", "main"} [true]))).any
        isMergeBaseEv = false ∧
    Event.delete "feat" ∈
      runEvents (gitLostMain (fun _ => Except.ok ["feat", "main"]) ["feat", "main"]
        ["origin"] ["main"] (initSt (some "main") {"feat", "main"} [true])) := by
  decide

/-- C5 amended: the live deletion path (`main` → `_examine_branch` →
`_request_removal`) never performs a merge-base query at all; the
`mergeBase`/`resolveCommit` equality test exists only in `_attempt_removal`,
which no code path invokes, and there it does guard the deletion: that
function mutates the ref set only when the equality holds, after recording
the merge-base query. -/
theorem live_path_no_mergebase :
    (∀ (cq : String → Except Unit (List String)) (heads rs perm : List String)
        (st st' : St), gitLostMain cq heads rs perm st = Except.ok st' →
      st.events.any isMergeBaseEv = false → st'.events.any isMergeBaseEv = false) ∧
    (∀ (st : St) (l : String) (rn : Option String) (o : String)
        (mb : String → String → String) (rv : String → String),
      (attempt_removal st l rn o mb rv).2.refs ≠ st.refs →
        rv l = mb l (otherRefOf rn o) ∧
        Event.mergeBase l (otherRefOf rn o) ∈ (attempt_removal st l rn o mb rv).2.events) := by
  constructor
  · intro cq heads rs perm st st' h h0
    by_cases hrs : rs = []
    · rw [gitLostMain, if_pos hrs] at h; cases h
    · rw [gitLostMain, if_neg hrs] at h
      obtain ⟨new, hnew, hall⟩ := runHeads_events cq rs perm st st' heads h
      have hmb : new.any isMergeBaseEv = false := by
        rw [List.any_eq_false]
        intro e he
        have := List.all_eq_true.mp hall e he
        cases e <;> simp_all [isLiveEv, isMergeBaseEv]
      simp [hnew, List.any_append, h0, hmb]
  · intro st l rn o mb rv h
    by_cases hg : st.current = some l ∧ l = o
    · rw [attempt_removal, if_pos hg] at h
      exact absurd rfl h
    · by_cases heq : rv l = mb l (otherRefOf rn o)
      · refine ⟨heq, ?_⟩
        rw [attempt_removal, if_neg hg, if_pos heq] at h ⊢
        cases hans : st.answers with
        | nil => rw [hans] at h; simp at h
        | cons a rest =>
          cases a with
          | false => rw [hans] at h; simp at h
          | true =>
            by_cases hc : st.current = some l
            · simp [hc]
            · simp [hc]
      · rw [attempt_removal, if_neg hg, if_neg heq] at h
        exact absurd rfl h

theorem live_path_no_mergebase_witness :
    (⟨some "main", {"feat", "main"}, [],
        [Event.query "feat", Event.prompt "feat" "main"]⟩ : St).events.any
      isMergeBaseEv = false ∧
    ((fun _ => "s") "l" = (fun _ _ => "s") "l" (otherRefOf none "m") ∧
      Event.mergeBase "l" (otherRefOf none "m") ∈
        (attempt_removal (initSt none {"l"} [true]) "l" none "m"
          (fun _ _ => "s") (fun _ => "s")).2.events) :=
  ⟨live_path_no_mergebase.1 (fun _ => Except.ok ["feat", "main"]) ["feat"]
      ["origin"] ["main"] (initSt (some "main") {"feat", "main"} [])
      (⟨some "main", {"feat", "main"}, [],
        [Event.query "feat", Event.prompt "feat" "main"]⟩ : St) (by decide) rfl,
   live_path_no_mergebase.2 (initSt none {"l"} [true]) "l" none "m"
      (fun _ _ => "s") (fun _ => "s") (by decide)⟩

/-- C6 counterexample: with a nonempty remote list but an empty permanent
list, the run does not fail immediately with a policy error; the first
branch is examined and the run dies mid-examination with the `IndexError`
from evaluating `permanent[0]` in the fallback pass — precisely the mid-run
failure the claim rules out. -/
theorem empty_permanent_midrun_cex :
    gitLostMain (fun b => Except.ok [b, "dev"]) ["b1", "b2"] ["origin"] []
      (initSt (some "dev") {"b1", "b2", "dev"} []) =
      Except.error RunErr.indexError ∧
    RunErr.indexError ≠ RunErr.policy := by decide

/-- C6 amended: only the remote list is validated — an empty remote list
fails the run immediately, before any branch is processed.  The permanent
list is never checked up front; when it is empty, examining any branch with
a nonempty descendants set fails mid-run with an `IndexError` from
`permanent[0]`. -/
theorem policy_checks :
    (∀ (cq : String → Except Unit (List String)) (heads permanent : List String)
        (st : St),
      gitLostMain cq heads [] permanent st = Except.error RunErr.policy) ∧
    (∀ (b : String) (rs : List String) (st : St) (d : List String), d ≠ [] →
      examineCore b rs [] st d = Except.error RunErr.indexError) := by
  constructor
  · intro cq heads permanent st
    simp [gitLostMain]
  · intro b rs st d hd
    have h0 : examineCore b rs [] st d =
        match promptCandidates b [] st (d.filter isRemoteName) with
        | Except.error e => Except.error e
        | Except.ok (true, st1) => Except.ok st1
        | Except.ok (false, st1) =>
          match promptCandidates b [] st1
              (d.filter (fun s => !(isRemoteName s))) with
          | Except.error e => Except.error e
          | Except.ok (_, st2) => Except.ok st2 := rfl
    rw [h0]
    cases hf1 : d.filter isRemoteName with
    | cons c cs => rw [promptCandidates_nilPerm]
    | nil =>
      show (match promptCandidates b [] st
            (d.filter (fun s => !(isRemoteName s))) with
          | Except.error e => Except.error e
          | Except.ok (_, st2) => Except.ok st2) = Except.error RunErr.indexError
      cases hf2 : d.filter (fun s => !(isRemoteName s)) with
      | cons c cs => rw [promptCandidates_nilPerm]
      | nil =>
        obtain ⟨x, hx⟩ := List.exists_mem_of_ne_nil d hd
        by_cases hr : isRemoteName x
        · have hmem : x ∈ d.filter isRemoteName := List.mem_filter.mpr ⟨hx, hr⟩
          rw [hf1] at hmem
          cases hmem
        · have hmem : x ∈ d.filter (fun s => !(isRemoteName s)) :=
            List.mem_filter.mpr ⟨hx, by simp [hr]⟩
          rw [hf2] at hmem
          cases hmem

theorem policy_checks_witness :
    gitLostMain (fun b => Except.ok [b]) ["x"] [] ["main"] (initSt none {} []) =
      Except.error RunErr.policy ∧
    examineCore "b" ["origin"] [] (initSt none {} []) ["dev"] =
      Except.error RunErr.indexError :=
  ⟨policy_checks.1 (fun b => Except.ok [b]) ["x"] ["main"] (initSt none {} []),
   policy_checks.2 "b" ["origin"] (initSt none {} []) ["dev"] (by decide)⟩

/-- C7 counterexample: the fallback pass iterates the Python `descendants`
set, whose iteration order is not determined by the ref snapshot.  Two runs
whose `--contains` results are the same set (the two lists are permutations)
but enumerated in different orders — with identical (all-default) answers —
produce different prompt sequences, so the prompt sequence is not
reproducible across runs on the same snapshot. -/
theorem prompt_order_not_reproducible_cex :
    List.Perm ["b", "remotes/origin/x", "remotes/origin/y"]
      ["b", "remotes/origin/y", "remotes/origin/x"] ∧
    promptsOf (runEvents (gitLostMain
        (fun _ => Except.ok ["b", "remotes/origin/x", "remotes/origin/y"])
        ["b"] ["origin"] ["main"] (initSt (some "main") {"b", "main"} []))) ≠
      promptsOf (runEvents (gitLostMain
        (fun _ => Except.ok ["b", "remotes/origin/y", "remotes/origin/x"])
        ["b"] ["origin"] ["main"] (initSt (some "main") {"b", "main"} []))) := by
  decide

/-- C7 amended: on the same descendant set (two enumerations that are
permutations of each other) the permanent pass picks the same target, and —
with every prompt declined — two examinations produce the same multiset of
prompts; only the order of the fallback prompts may differ between runs,
since it follows the set's arbitrary iteration order. -/
theorem prompt_multiset_deterministic (b p : String) (ps rs d1 d2 : List String)
    (st : St) (hperm : List.Perm d1 d2) (hans : ∀ a ∈ st.answers, a = false) :
    permTarget d1 rs (p :: ps) = permTarget d2 rs (p :: ps) ∧
    ∃ s1 s2, examineCore b rs (p :: ps) st d1 = Except.ok s1 ∧
      examineCore b rs (p :: ps) st d2 = Except.ok s2 ∧
      List.Perm (promptsOf s1.events) (promptsOf s2.events) := by
  have hmem : ∀ x, x ∈ d1 ↔ x ∈ d2 := fun x => hperm.mem_iff
  have hpt := permTarget_congr d1 d2 hmem rs (p :: ps)
  refine ⟨hpt, ?_⟩
  cases hT : permTarget d1 rs (p :: ps) with
  | some t =>
    have hT2 : permTarget d2 rs (p :: ps) = some t := by rw [← hpt]; exact hT
    have h1 : examineCore b rs (p :: ps) st d1 =
        Except.ok (request_removal st b t p).2 := by
      simp [examineCore, hT, perm0]
    have h2 : examineCore b rs (p :: ps) st d2 =
        Except.ok (request_removal st b t p).2 := by
      simp [examineCore, hT2, perm0]
    exact ⟨_, _, h1, h2, List.Perm.refl _⟩
  | none =>
    have hT2 : permTarget d2 rs (p :: ps) = none := by rw [← hpt]; exact hT
    obtain ⟨s1a, e1a, r1a, c1a, ev1a, a1a⟩ :=
      promptCandidates_allFalse b p ps (d1.filter isRemoteName) st hans
    obtain ⟨s1b, e1b, r1b, c1b, ev1b, a1b⟩ :=
      promptCandidates_allFalse b p ps
        (d1.filter (fun s => !(isRemoteName s))) s1a a1a
    obtain ⟨s2a, e2a, r2a, c2a, ev2a, a2a⟩ :=
      promptCandidates_allFalse b p ps (d2.filter isRemoteName) st hans
    obtain ⟨s2b, e2b, r2b, c2b, ev2b, a2b⟩ :=
      promptCandidates_allFalse b p ps
        (d2.filter (fun s => !(isRemoteName s))) s2a a2a
    have h1 : examineCore b rs (p :: ps) st d1 = Except.ok s1b := by
      have h0 : examineCore b rs (p :: ps) st d1 =
          match promptCandidates b (p :: ps) st (d1.filter isRemoteName) with
          | Except.error e => Except.error e
          | Except.ok (true, st1) => Except.ok st1
          | Except.ok (false, st1) =>
            match promptCandidates b (p :: ps) st1
                (d1.filter (fun s => !(isRemoteName s))) with
            | Except.error e => Except.error e
            | Except.ok (_, st2) => Except.ok st2 := by
        simp [examineCore, hT]
      rw [h0, e1a]
      show (match promptCandidates b (p :: ps) s1a
            (d1.filter (fun s => !(isRemoteName s))) with
          | Except.error e => Except.error e
          | Except.ok (_, st2) => Except.ok st2) = Except.ok s1b
      rw [e1b]
    have h2 : examineCore b rs (p :: ps) st d2 = Except.ok s2b := by
      have h0 : examineCore b rs (p :: ps) st d2 =
          match promptCandidates b (p :: ps) st (d2.filter isRemoteName) with
          | Except.error e => Except.error e
          | Except.ok (true, st1) => Except.ok st1
          | Except.ok (false, st1) =>
            match promptCandidates b (p :: ps) st1
                (d2.filter (fun s => !(isRemoteName s))) with
            | Except.error e => Except.error e
            | Except.ok (_, st2) => Except.ok st2 := by
        simp [examineCore, hT2]
      rw [h0, e2a]
      show (match promptCandidates b (p :: ps) s2a
            (d2.filter (fun s => !(isRemoteName s))) with
          | Except.error e => Except.error e
          | Except.ok (_, st2) => Except.ok st2) = Except.ok s2b
      rw [e2b]
    refine ⟨s1b, s2b, h1, h2, ?_⟩
    have hev1 : promptsOf s1b.events = promptsOf st.events ++
        ((d1.filter isRemoteName).map (fun c => (b, c)) ++
         (d1.filter (fun s => !(isRemoteName s))).map (fun c => (b, c))) := by
      rw [ev1b, ev1a]
      simp [promptsOf_append, promptsOf_map_prompt]
    have hev2 : promptsOf s2b.events = promptsOf st.events ++
        ((d2.filter isRemoteName).map (fun c => (b, c)) ++
         (d2.filter (fun s => !(isRemoteName s))).map (fun c => (b, c))) := by
      rw [ev2b, ev2a]
      simp [promptsOf_append, promptsOf_map_prompt]
    rw [hev1, hev2]
    exact List.Perm.append_left _
      (List.Perm.append (List.Perm.map _ (hperm.filter _))
        (List.Perm.map _ (hperm.filter _)))

theorem prompt_multiset_deterministic_witness :
    permTarget ["remotes/origin/x", "dev"] ["origin"] ["main"] =
      permTarget ["dev", "remotes/origin/x"] ["origin"] ["main"] ∧
    ∃ s1 s2, examineCore "b" ["origin"] ["main"] (initSt none {"b"} [])
        ["remotes/origin/x", "dev"] = Except.ok s1 ∧
      examineCore "b" ["origin"] ["main"] (initSt none {"b"} [])
        ["dev", "remotes/origin/x"] = Except.ok s2 ∧
      List.Perm (promptsOf s1.events) (promptsOf s2.events) :=
  prompt_multiset_deterministic "b" "main" [] ["origin"]
    ["remotes/origin/x", "dev"] ["dev", "remotes/origin/x"]
    (initSt none {"b"} []) (by decide) (fun a ha => absurd ha (List.not_mem_nil a))

/-- C8 counterexample: with an empty permanent list (so trivially no
permanent-branch match) and a remote-qualified descendant present, the
fallback pass does not offer the candidate and does not leave the branch
untouched as a valid terminal outcome — evaluating `permanent[0]` fails with
an `IndexError` before any prompt. -/
theorem fallback_empty_permanent_cex :
    examineCore "b" ["origin"] [] (initSt (some "main") {"b"} [])
      ["remotes/origin/x"] = Except.error RunErr.indexError := by decide

/-- C8 amended: provided the permanent list is nonempty, the fallback pass —
which runs exactly when the permanent pass found no target — behaves as
claimed: the examination completes, the branch is deleted at most once, the
prompts offered are a prefix of the remote-qualified descendants followed by
a prefix of the local ones (locals are offered only after every
remote-qualified candidate was offered), with all answers declining every
candidate is offered and nothing changes, and an empty descendants set
leaves the state completely untouched. -/
theorem fallback_pass_structure (b p : String) (ps rs d : List String) (st : St)
    (hT : permTarget d rs (p :: ps) = none) :
    ∃ st', examineCore b rs (p :: ps) st d = Except.ok st' ∧
      (st'.refs = st.refs ∨ st'.refs = st.refs.erase b) ∧
      (∃ rcs lcs,
        promptsOf st'.events = promptsOf st.events ++
          (rcs.map (fun c => (b, c)) ++ lcs.map (fun c => (b, c))) ∧
        (∃ suf, d.filter isRemoteName = rcs ++ suf) ∧
        (∃ suf, d.filter (fun s => !(isRemoteName s)) = lcs ++ suf) ∧
        (lcs ≠ [] → rcs = d.filter isRemoteName)) ∧
      ((∀ a ∈ st.answers, a = false) →
        st'.refs = st.refs ∧ st'.current = st.current ∧
        promptsOf st'.events = promptsOf st.events ++
          ((d.filter isRemoteName).map (fun c => (b, c)) ++
           (d.filter (fun s => !(isRemoteName s))).map (fun c => (b, c)))) ∧
      (d = [] → st' = st) := by
  have h0 : examineCore b rs (p :: ps) st d =
      match promptCandidates b (p :: ps) st (d.filter isRemoteName) with
      | Except.error e => Except.error e
      | Except.ok (true, st1) => Except.ok st1
      | Except.ok (false, st1) =>
        match promptCandidates b (p :: ps) st1
            (d.filter (fun s => !(isRemoteName s))) with
        | Except.error e => Except.error e
        | Except.ok (_, st2) => Except.ok st2 := by
    simp [examineCore, hT]
  obtain ⟨res1, st1, new1, e1, ev1, f1, t1⟩ :=
    promptCandidates_shape b p ps (d.filter isRemoteName) st
  cases res1 with
  | true =>
    obtain ⟨hrefs, pre, c, suf, hsplit, hdisj⟩ := t1 rfl
    refine ⟨st1, by rw [h0, e1], Or.inr hrefs, ?_, ?_, ?_⟩
    · refine ⟨pre ++ [c], [], ?_, ⟨suf, by rw [hsplit]; simp⟩,
        ⟨d.filter (fun s => !(isRemoteName s)), by simp⟩,
        fun hl => absurd rfl hl⟩
      rcases hdisj with ⟨_, _, hn⟩ | ⟨_, _, hn⟩ <;>
        · rw [ev1, hn]
          simp [promptsOf_append, promptsOf_map_prompt, promptsOf_cons_prompt, promptsOf_cons_checkout, promptsOf_cons_delete, promptsOf_nil]
    · intro hansAll
      obtain ⟨sAF, eAF, -, -, -, -⟩ :=
        promptCandidates_allFalse b p ps (d.filter isRemoteName) st hansAll
      rw [e1] at eAF
      cases eAF
    · intro hd
      subst hd
      simp at hsplit
  | false =>
    obtain ⟨r1, c1, n1⟩ := f1 rfl
    obtain ⟨res2, st2, new2, e2, ev2, f2, t2⟩ :=
      promptCandidates_shape b p ps (d.filter (fun s => !(isRemoteName s))) st1
    have hok : examineCore b rs (p :: ps) st d = Except.ok st2 := by
      rw [h0, e1]
      show (match promptCandidates b (p :: ps) st1
            (d.filter (fun s => !(isRemoteName s))) with
          | Except.error e => Except.error e
          | Except.ok (_, st2) => Except.ok st2) = Except.ok st2
      rw [e2]
    cases res2 with
    | false =>
      obtain ⟨r2, c2, n2⟩ := f2 rfl
      have hprompts : promptsOf st2.events = promptsOf st.events ++
          ((d.filter isRemoteName).map (fun c => (b, c)) ++
           (d.filter (fun s => !(isRemoteName s))).map (fun c => (b, c))) := by
        rw [ev2, ev1, n1, n2]
        simp [promptsOf_append, promptsOf_map_prompt]
      refine ⟨st2, hok, Or.inl (by rw [r2, r1]), ?_, ?_, ?_⟩
      · exact ⟨d.filter isRemoteName, d.filter (fun s => !(isRemoteName s)),
          hprompts, ⟨[], by simp⟩, ⟨[], by simp⟩, fun _ => rfl⟩
      · exact fun _ => ⟨by rw [r2, r1], by rw [c2, c1], hprompts⟩
      · intro hd
        subst hd
        have e1' : promptCandidates b (p :: ps) st ([] : List String) =
            Except.ok (false, st1) := by simpa using e1
        have e1'' : (Except.ok (false, st) : Except RunErr (Bool × St)) =
            Except.ok (false, st1) := e1'
        injection e1'' with e1x
        injection e1x with _ e1y
        subst e1y
        have e2' : promptCandidates b (p :: ps) st ([] : List String) =
            Except.ok (false, st2) := by simpa using e2
        have e2'' : (Except.ok (false, st) : Except RunErr (Bool × St)) =
            Except.ok (false, st2) := e2'
        injection e2'' with e2x
        injection e2x with _ e2y
        exact e2y.symm
    | true =>
      obtain ⟨hrefs2, pre, c, suf, hsplit, hdisj⟩ := t2 rfl
      have hprompts : promptsOf st2.events = promptsOf st.events ++
          ((d.filter isRemoteName).map (fun c => (b, c)) ++
           (pre ++ [c]).map (fun x => (b, x))) := by
        rcases hdisj with ⟨_, _, hn⟩ | ⟨_, _, hn⟩ <;>
          · rw [ev2, ev1, n1, hn]
            simp [promptsOf_append, promptsOf_map_prompt, promptsOf_cons_prompt, promptsOf_cons_checkout, promptsOf_cons_delete, promptsOf_nil]
      refine ⟨st2, hok, Or.inr (by rw [hrefs2, r1]), ?_, ?_, ?_⟩
      · exact ⟨d.filter isRemoteName, pre ++ [c], hprompts, ⟨[], by simp⟩,
          ⟨suf, by rw [hsplit]; simp⟩, fun _ => rfl⟩
      · intro hansAll
        obtain ⟨sAF, eAF, -, -, -, aAF⟩ :=
          promptCandidates_allFalse b p ps (d.filter isRemoteName) st hansAll
        rw [e1] at eAF
        injection eAF with eAFx
        injection eAFx with _ eAFy
        subst eAFy
        obtain ⟨sAF2, eAF2, -, -, -, -⟩ :=
          promptCandidates_allFalse b p ps
            (d.filter (fun s => !(isRemoteName s))) st1 aAF
        rw [e2] at eAF2
        cases eAF2
      · intro hd
        subst hd
        simp at hsplit

theorem fallback_pass_structure_witness :
    ∃ st', examineCore "b" ["origin"] ["main"] (initSt none {"b"} [])
        ["remotes/origin/x", "dev"] = Except.ok st' ∧
      (st'.refs = (initSt none {"b"} []).refs ∨
       st'.refs = (initSt none {"b"} []).refs.erase "b") := by
  obtain ⟨st', h1, h2, -, -, -⟩ := fallback_pass_structure "b" "main" [] ["origin"]
    ["remotes/origin/x", "dev"] (initSt none {"b"} []) (by decide)
  exact ⟨st', h1, h2⟩

/-- C9 counterexample: the driver loop iterates `repo.heads` read at loop
time, after the permanent-branch creation step, not the `_get_refs`
inventory snapshot — here the loop announces and skips the branch `main`,
which the inventory snapshot does not contain at all. -/
theorem driver_not_inventory_cex :
    headsAtLoop (fun rem name => rem == "origin" && name == "main") ["origin"]
      true ⟨["feature"]⟩ ["main"] = ["feature", "main"] ∧
    inventoryLocal ⟨["feature"]⟩ = ["feature"] ∧
    "main" ∉ inventoryLocal ⟨["feature"]⟩ ∧
    driverRun (fun b => Except.ok [b])
      (fun rem name => rem == "origin" && name == "main") true ⟨["feature"]⟩
      ["origin"] ["main"] (initSt (some "feature") {"feature"} []) =
      Except.ok (⟨some "feature", {"feature"}, [],
        [Event.query "feature", Event.skip "main"]⟩ : St) := by decide

/-- C9 amended: the driver iterates the repository's loop-time branch
enumeration (the snapshot heads plus any permanent branches created in
step 2), which need not coincide with `inventory.local`; on that list, every
occurrence of a permanent branch is announced and skipped, and every other
branch receives exactly one examination (one `--contains` query), as the
trace counts show. -/
theorem driver_iterates_heads (cq : String → Except Unit (List String))
    (rh : String → String → Bool) (ac : Bool) (r0 : RepoState)
    (rs perm : List String) (st st' : St)
    (h : driverRun cq rh ac r0 rs perm st = Except.ok st')
    (hst : st.events = []) (x : String) :
    st'.events.count (Event.skip x) =
      ((headsAtLoop rh rs ac r0 perm).filter
        (fun h0 => decide (h0 ∈ perm))).count x ∧
    st'.events.count (Event.query x) =
      ((headsAtLoop rh rs ac r0 perm).filter
        (fun h0 => !(decide (h0 ∈ perm)))).count x := by
  unfold driverRun gitLostMain at h
  by_cases hrs : rs = []
  · rw [if_pos hrs] at h
    cases h
  · rw [if_neg hrs] at h
    have hc := runHeads_counts cq rs perm st st' _ h x
    rw [hst] at hc
    simpa using hc

theorem driver_iterates_heads_witness :
    (⟨some "f", {"f"}, [], [Event.query "f", Event.skip "m"]⟩ : St).events.count
        (Event.skip "m") =
      ((headsAtLoop (fun rem name => rem == "o" && name == "m") ["o"] true
        ⟨["f"]⟩ ["m"]).filter (fun h0 => decide (h0 ∈ ["m"]))).count "m" ∧
    (⟨some "f", {"f"}, [], [Event.query "f", Event.skip "m"]⟩ : St).events.count
        (Event.query "m") =
      ((headsAtLoop (fun rem name => rem == "o" && name == "m") ["o"] true
        ⟨["f"]⟩ ["m"]).filter (fun h0 => !(decide (h0 ∈ ["m"])))).count "m" :=
  driver_iterates_heads (fun b => Except.ok [b])
    (fun rem name => rem == "o" && name == "m") true ⟨["f"]⟩ ["o"] ["m"]
    (initSt (some "f") {"f"} [])
    (⟨some "f", {"f"}, [], [Event.query "f", Event.skip "m"]⟩ : St)
    (by decide) rfl "m"

end GitLost
